import Mathlib

/-!
Shallow embedding of `alerts/geomodel/locality.py` (MozDef geomodel locality
state reconciliation): the locality data model, the per-user state merger
`_update`, the batch driver `merge`, the staleness filter `remove_outdated`,
and the untyped-record parsing performed by `find_all.to_state`.

Modelling conventions:
- Python `datetime` timestamps become `Int` (seconds); `timedelta(days=d)`
  becomes `d * 86400` seconds; `datetime` comparisons become `Int` order.
- `latitude` / `longitude` are carried opaquely (no arithmetic is ever done
  on them in the source), modelled as `Int`.
- The Python `dict` keyed by username becomes an association list with
  dict semantics: insertion keeps first-occurrence position, later writes
  to the same key overwrite the value in place.
- `remove_outdated` reads `datetime.utcnow()` inside its body; the clock
  reading is exposed as the explicit argument `utcnow`, standard for
  embedding an impure environment read.
-/

namespace GeoModel

/-- `Locality` NamedTuple: one observed geographic cluster of activity. -/
structure Locality where
  sourceipaddress : String
  city : String
  country : String
  lastaction : Int
  latitude : Int
  longitude : Int
  radius : Int
deriving DecidableEq

/-- `State` NamedTuple: per-user locality-tracking state. -/
structure State where
  type_ : String
  username : String
  localities : List Locality
deriving DecidableEq

/-- `Update` NamedTuple: a state plus a flag telling whether it changed. -/
structure Update where
  state : State
  did_update : Bool
deriving DecidableEq

/-- The `loc1.city == loc2.city and loc1.country == loc2.country` test of
`_update`: the (city, country) natural key comparison. -/
def sameKey (loc1 loc2 : Locality) : Bool :=
  loc1.city == loc2.city && loc1.country == loc2.country

/-- The `new_more_recent or new_ip` condition of `_update`. -/
def shouldReplace (loc1 loc2 : Locality) : Bool :=
  decide (loc1.lastaction > loc2.lastaction) || loc1.sourceipaddress != loc2.sourceipaddress

/-- The inner `for index, loc2 in enumerate(state.localities)` loop of
`_update`, scanning for the first locality with `loc1`'s key and breaking
there.  Returns the (possibly updated) list, the `did_find` flag, and
whether this scan set `did_update`. -/
def scan (loc1 : Locality) : List Locality → List Locality × Bool × Bool
  | [] => ([], false, false)
  | loc2 :: rest =>
    if sameKey loc1 loc2 then
      if shouldReplace loc1 loc2 then (loc1 :: rest, true, true)
      else (loc2 :: rest, true, false)
    else
      let r := scan loc1 rest
      (loc2 :: r.1, r.2.1, r.2.2)

/-- The body of the outer `for loc1 in from_evt.localities` loop of
`_update`, threading the accumulated locality list and `did_update` flag. -/
def updateStep (acc : List Locality × Bool) (loc1 : Locality) : List Locality × Bool :=
  let r := scan loc1 acc.1
  if r.2.1 then (r.1, acc.2 || r.2.2)
  else (acc.1 ++ [loc1], true)

/-- `_update(state, from_evt)`: merge the localities observed in `from_evt`
into `state`, one incoming locality at a time, in order. -/
def _update (state : State) (from_evt : State) : Update :=
  let r := from_evt.localities.foldl updateStep (state.localities, false)
  ⟨{ state with localities := r.1 }, r.2⟩

/-- Association list with Python-dict semantics, keyed by username. -/
abbrev Mapped := List (String × Update)

/-- Python `mapped[k] = v`: overwrite in place at the first occurrence of
`k`, else append at the end. -/
def dictSet : Mapped → String → Update → Mapped
  | [], k, v => [(k, v)]
  | (k', v') :: rest, k, v =>
    if k' == k then (k', v) :: rest
    else (k', v') :: dictSet rest k v

/-- Python `mapped[k]` / `k in mapped`: lookup by key. -/
def dictGet : Mapped → String → Option Update
  | [], _ => none
  | (k', v') :: rest, k => if k' == k then some v' else dictGet rest k

/-- One step of the dict comprehension
`mapped = \x7bstate.username: Update(state, False) for state in persisted\x7d`. -/
def seedStep (m : Mapped) (s : State) : Mapped :=
  dictSet m s.username ⟨s, false⟩

/-- The body of the `for new_state in event_sourced` loop of `merge`. -/
def mergeStep (m : Mapped) (s : State) : Mapped :=
  match dictGet m s.username with
  | some u => dictSet m s.username (_update u.state s)
  | none => dictSet m s.username ⟨s, true⟩

/-- `merge(persisted, event_sourced)`: seed a dict from the persisted
states, fold the event-sourced states into it, return the dict values. -/
def merge (persisted event_sourced : List State) : List Update :=
  (event_sourced.foldl mergeStep (persisted.foldl seedStep [])).map Prod.snd

/-- Replace the first element satisfying `p` by `new`, leaving the rest of
the list alone.  Used to phrase the spec's "update `M` in place". -/
def replaceFirst (p : Locality → Bool) (new : Locality) : List Locality → List Locality
  | [] => []
  | x :: xs => if p x then new :: xs else x :: replaceFirst p new xs

/-- One step of the spec's `merge_one` algorithm, written from the spec's
words: search for a locality `M` with `L`'s (city, country) key; if found,
update `M` in place with `L` only when `L` is strictly more recent or has a
different source address; if not found, append `L` and report a change. -/
def merge_one_step (locs : List Locality) (L : Locality) : List Locality × Bool :=
  match locs.find? (fun M => sameKey L M) with
  | some M =>
    if shouldReplace L M then (replaceFirst (fun M2 => sameKey L M2) L locs, true)
    else (locs, false)
  | none => (locs ++ [L], true)

/-- The spec's `merge_one(current, incoming)`: process `incoming.localities`
in the order supplied, accumulating the locality list and the `changed`
flag. -/
def merge_one_spec (current incoming : State) : Update :=
  let r := incoming.localities.foldl
    (fun acc L => let s := merge_one_step acc.1 L; (s.1, acc.2 || s.2))
    (current.localities, false)
  ⟨{ current with localities := r.1 }, r.2⟩

/-- `remove_outdated(localities, days_valid)`: keep the localities whose
last activity is no older than `days_valid` days before now.  The source
reads `datetime.utcnow()` inside the function body; that environment
reading is the explicit `utcnow` argument here. -/
def remove_outdated (localities : List Locality) (days_valid : Int) (utcnow : Int) :
    List Locality :=
  localities.filter (fun loc => decide (loc.lastaction ≥ utcnow - days_valid * 86400))

/-- Untyped values as they arrive from a deserialized ElasticSearch
document (`result['_source']`). -/
inductive Val where
  | vstr : String → Val
  | vint : Int → Val
  | vlist : List Val → Val
  | vobj : List (String × Val) → Val

/-- Python `dictionary[key]` on an untyped record: `none` models the
`KeyError` that `_dict_take` raises when the key is absent. -/
def objGet (fields : List (String × Val)) (k : String) : Option Val :=
  (fields.find? (fun kv => kv.1 == k)).map (fun kv => kv.2)

/-- A `Locality` as actually built by `Locality(**_dict_take(loc,
Locality._fields))`: every required key must be present, but the values are
taken as-is — Python NamedTuple construction performs no type check. -/
structure RawLocality where
  sourceipaddress : Val
  city : Val
  country : Val
  lastaction : Val
  latitude : Val
  longitude : Val
  radius : Val

/-- A `State` as built by `State(**_dict_take(result, State._fields))`,
with each locality entry already parsed. -/
structure RawState where
  type_ : Val
  username : Val
  localities : List RawLocality

/-- Parse one entry of `result['localities']`: it must be a record
(`TypeError` is raised and caught otherwise) holding all seven locality
field names (`KeyError` otherwise); values are not inspected further. -/
def parseRawLocality : Val → Option RawLocality
  | Val.vobj fields => do
    let sip ← objGet fields "sourceipaddress"
    let ci ← objGet fields "city"
    let co ← objGet fields "country"
    let la ← objGet fields "lastaction"
    let lat ← objGet fields "latitude"
    let lon ← objGet fields "longitude"
    let rad ← objGet fields "radius"
    some ⟨sip, ci, co, la, lat, lon, rad⟩
  | _ => none

/-- `find_all.to_state(result)`: rebuild the localities list, then build a
`State` from the record; any `KeyError` or `TypeError` along the way yields
`None`. -/
def to_state (result : List (String × Val)) : Option RawState :=
  match objGet result "localities" with
  | some (Val.vlist locs) =>
    match locs.mapM parseRawLocality with
    | some rls =>
      match objGet result "type_", objGet result "username" with
      | some t, some u => some ⟨t, u, rls⟩
      | _, _ => none
    | none => none
  | _ => none

/-- The result loop of `find_all`: each ES hit is a pair of the document
`_id` and its `_source` record; hits whose record fails `to_state` are
skipped, the rest become entries.  The ES query itself is external I/O and
is modelled by taking the hit list as input. -/
def find_all (results : List (String × List (String × Val))) : List (String × RawState) :=
  results.filterMap (fun r => (to_state r.2).map (fun s => (r.1, s)))

/-- The (city, country) natural key of a locality. -/
def keyOf (loc : Locality) : String × String :=
  (loc.city, loc.country)

/-- `find?` by (city, country) key: the locality stored under a key. -/
def findKey (c co : String) (locs : List Locality) : Option Locality :=
  locs.find? (fun M => M.city == c && M.country == co)

/-- Modelled from the spec: `filter_stale(localities, retentionDays, now)`,
"keeps exactly the localities whose lastActivity >= now - retentionDays
days".  The source's `remove_outdated` lacks the `now` parameter and reads
the clock itself; this definition follows the spec's stated signature. -/
def filter_stale (localities : List Locality) (retentionDays : Int) (now : Int) :
    List Locality :=
  localities.filter (fun loc => decide (now - retentionDays * 86400 ≤ loc.lastaction))

/-- Sample locality in Paris at time `t` from address `ip`. -/
def locParis (t : Int) (ip : String) : Locality :=
  ⟨ip, "Paris", "FR", t, 48, 2, 10⟩

/-- Sample locality in Rome at time `t` from address `ip`. -/
def locRome (t : Int) (ip : String) : Locality :=
  ⟨ip, "Rome", "IT", t, 41, 12, 10⟩

/-- Sample user state with the `locality` type discriminator. -/
def stateOf (u : String) (ls : List Locality) : State :=
  ⟨"locality", u, ls⟩

/-- Every binding in the dict stores a state whose username is its key. -/
def goodKV (m : Mapped) : Prop :=
  ∀ kv ∈ m, kv.2.state.username = kv.1

/-- The per-key combination the update rule induces: the stored locality
`M` is displaced by an incoming `L` exactly when `L` is strictly newer or
from a different source address. -/
def keepNewer (M L : Locality) : Locality :=
  if shouldReplace L M then L else M

/-- A well-formed persisted record, for concrete witnesses. -/
def wellFormedRec (u : String) : List (String × Val) :=
  [("type_", Val.vstr "locality"), ("username", Val.vstr u), ("localities", Val.vlist [])]

/-- A malformed persisted record: the `localities` field is missing, so
`_dict_take` raises `KeyError` on it. -/
def missingFieldRec : List (String × Val) :=
  [("type_", Val.vstr "locality"), ("username", Val.vstr "mallory")]

/-- A record with an extra unexpected field at both levels and mistyped
values (`username` an integer, `lastaction` a string). -/
def sloppyRec : List (String × Val) :=
  [("type_", Val.vstr "locality"), ("username", Val.vint 7), ("extra", Val.vint 0),
   ("localities", Val.vlist [Val.vobj
     [("sourceipaddress", Val.vstr "1.1.1.1"), ("city", Val.vstr "Paris"),
      ("country", Val.vstr "FR"), ("lastaction", Val.vstr "yesterday"),
      ("latitude", Val.vint 1), ("longitude", Val.vint 2), ("radius", Val.vint 3),
      ("unexpected", Val.vint 9)]])]

end GeoModel

namespace GeoModel

/-- `scan` is first-match search followed by conditional in-place
replacement: the executable characterization of the inner loop. -/
theorem scan_eq_spec (L : Locality) (locs : List Locality) :
    scan L locs =
      match locs.find? (fun M => sameKey L M) with
      | some M =>
        if shouldReplace L M then (replaceFirst (fun M2 => sameKey L M2) L locs, true, true)
        else (locs, true, false)
      | none => (locs, false, false) := by
  induction locs with
  | nil => rfl
  | cons x xs ih =>
    by_cases h : sameKey L x
    · by_cases hr : shouldReplace L x <;>
        simp [scan, replaceFirst, h, hr, List.find?_cons]
    · rcases hf : xs.find? (fun M => sameKey L M) with - | M
      · simp [hf] at ih
        simp [scan, h, List.find?_cons, hf, ih]
      · by_cases hr : shouldReplace L M
        · simp [hf, hr] at ih
          simp [scan, replaceFirst, h, List.find?_cons, hf, hr, ih]
        · simp [hf, hr] at ih
          simp [scan, replaceFirst, h, List.find?_cons, hf, hr, ih]

/-- The outer loop body of `_update` equals the spec's per-locality step. -/
theorem updateStep_eq_spec (acc : List Locality × Bool) (L : Locality) :
    updateStep acc L =
      ((merge_one_step acc.1 L).1, acc.2 || (merge_one_step acc.1 L).2) := by
  rw [updateStep, scan_eq_spec, merge_one_step]
  rcases hf : acc.1.find? (fun M => sameKey L M) with - | M
  · simp
  · by_cases hr : shouldReplace L M <;> simp [hr]

/-- C1. For every pair of user locality states with equal usernames,
`_update` processes `incoming.localities` in the order supplied and for
each incoming locality either updates the first locality with the same
(city, country) key in place — exactly when the incoming one is strictly
more recent or carries a different source address, marking a change — or,
when the key is absent, appends the incoming locality and marks a change;
equal-or-older same-address incoming localities leave the state untouched.
Formally: `_update` equals the `merge_one` algorithm written from the
spec's words. -/
theorem update_refines_merge_one_spec (current incoming : State)
    (h : current.username = incoming.username) :
    _update current incoming = merge_one_spec current incoming := by
  rw [_update, merge_one_spec]
  have hfun : ∀ (acc : List Locality × Bool) (L : Locality),
      updateStep acc L =
        (fun acc L => let s := merge_one_step acc.1 L; (s.1, acc.2 || s.2)) acc L := by
    intro acc L
    exact updateStep_eq_spec acc L
  rw [funext fun acc => funext fun L => hfun acc L]

/-- Witness for C1 at a concrete pair of states. -/
theorem update_refines_merge_one_spec_witness :
    (stateOf "alice" [locParis 10 "1.1.1.1"]).username =
      (stateOf "alice" [locParis 11 "1.1.1.1", locRome 3 "2.2.2.2"]).username ∧
    _update (stateOf "alice" [locParis 10 "1.1.1.1"])
        (stateOf "alice" [locParis 11 "1.1.1.1", locRome 3 "2.2.2.2"]) =
      merge_one_spec (stateOf "alice" [locParis 10 "1.1.1.1"])
        (stateOf "alice" [locParis 11 "1.1.1.1", locRome 3 "2.2.2.2"]) :=
  ⟨rfl, update_refines_merge_one_spec _ _ rfl⟩

/-- C7. Applying the staleness filter twice with the same retention window
and the same clock reading equals applying it once. -/
theorem remove_outdated_idempotent (localities : List Locality)
    (days_valid : Int) (utcnow : Int) :
    remove_outdated (remove_outdated localities days_valid utcnow) days_valid utcnow =
      remove_outdated localities days_valid utcnow := by
  simp [remove_outdated, List.filter_filter]

/-- C4 counterexample.  The result of `remove_outdated` differs between two
invocations with identical source-level arguments (`localities`,
`days_valid`) when the implicitly read clock differs: the source takes no
`now` parameter, so the claimed "function of exactly its three arguments
with an explicit now" is false of the code. -/
theorem remove_outdated_depends_on_hidden_clock :
    remove_outdated [locParis 0 "1.1.1.1"] 0 0 ≠ remove_outdated [locParis 0 "1.1.1.1"] 0 1 ∧
    remove_outdated [locParis 0 "1.1.1.1"] 0 0 = [locParis 0 "1.1.1.1"] ∧
    remove_outdated [locParis 0 "1.1.1.1"] 0 1 = [] := by
  refine ⟨?_, by decide, by decide⟩
  decide

/-- C4 amended.  `remove_outdated` takes only `(localities, days_valid)`
and reads the current time implicitly; relative to the clock value read it
keeps exactly the localities with `lastaction >= now - days_valid` days —
it agrees with the spec's `filter_stale` once the clock reading is passed
as the `now` argument — preserving order and dropping the rest, and is
deterministic given that clock value. -/
theorem remove_outdated_filters_given_clock (localities : List Locality)
    (days_valid : Int) (utcnow : Int) :
    remove_outdated localities days_valid utcnow = filter_stale localities days_valid utcnow ∧
    (∀ loc, loc ∈ remove_outdated localities days_valid utcnow ↔
      loc ∈ localities ∧ loc.lastaction ≥ utcnow - days_valid * 86400) ∧
    (remove_outdated localities days_valid utcnow).Sublist localities := by
  refine ⟨?_, ?_, List.filter_sublist _⟩
  · simp [remove_outdated, filter_stale, ge_iff_le]
  · intro loc
    simp [remove_outdated, List.mem_filter]

/-- C5 counterexample.  `_update` invoked on states with different
usernames raises nothing and silently returns a merged state carrying the
first argument's username. -/
theorem update_mismatched_usernames_silent :
    (stateOf "alice" []).username ≠ (stateOf "bob" [locRome 5 "2.2.2.2"]).username ∧
    _update (stateOf "alice" []) (stateOf "bob" [locRome 5 "2.2.2.2"]) =
      ⟨stateOf "alice" [locRome 5 "2.2.2.2"], true⟩ := by
  constructor
  · decide
  · decide

/-- C5 amended.  `_update` performs no username validation at all: its
result always carries `current`'s username and type discriminator, and its
output does not depend on `incoming`'s username or type — so mismatched
usernames silently produce a merged state instead of failing with an
`InvariantViolationError`. -/
theorem update_ignores_incoming_username (current incoming : State) :
    (_update current incoming).state.username = current.username ∧
    (_update current incoming).state.type_ = current.type_ ∧
    ∀ u t, _update current incoming = _update current ⟨t, u, incoming.localities⟩ :=
  ⟨rfl, rfl, fun _ _ => rfl⟩

/-- `sameKey` decides equality of the (city, country) natural keys. -/
theorem sameKey_iff (L M : Locality) : sameKey L M = true ↔ keyOf L = keyOf M := by
  simp [sameKey, keyOf, Prod.ext_iff]

/-- Replacing the first locality with `L`'s key by `L` leaves the list of
keys unchanged. -/
theorem replaceFirst_map_keyOf (L : Locality) (locs : List Locality) :
    (replaceFirst (fun M2 => sameKey L M2) L locs).map keyOf = locs.map keyOf := by
  induction locs with
  | nil => rfl
  | cons x xs ih =>
    by_cases h : sameKey L x
    · simp only [replaceFirst, h, if_true, List.map_cons]
      rw [(sameKey_iff L x).mp h]
    · simp [replaceFirst, h, ih]

/-- `updateStep` when no locality matches the incoming key: append. -/
theorem updateStep_of_none (acc : List Locality × Bool) (L : Locality)
    (hf : acc.1.find? (fun M => sameKey L M) = none) :
    updateStep acc L = (acc.1 ++ [L], true) := by
  rw [updateStep, scan_eq_spec, hf]
  rfl

/-- `updateStep` when the first matching locality is to be replaced. -/
theorem updateStep_of_replace (acc : List Locality × Bool) (L M : Locality)
    (hf : acc.1.find? (fun M => sameKey L M) = some M)
    (hr : shouldReplace L M = true) :
    updateStep acc L = (replaceFirst (fun M2 => sameKey L M2) L acc.1, true) := by
  rw [updateStep, scan_eq_spec, hf]
  simp [hr]

/-- `updateStep` when the first matching locality is kept as-is. -/
theorem updateStep_of_keep (acc : List Locality × Bool) (L M : Locality)
    (hf : acc.1.find? (fun M => sameKey L M) = some M)
    (hr : shouldReplace L M = false) :
    updateStep acc L = acc := by
  rw [updateStep, scan_eq_spec, hf]
  simp [hr]

/-- One `updateStep` keeps the key list Nodup and only ever extends it on
the right. -/
theorem updateStep_keys (K0 : List (String × String)) (acc : List Locality × Bool)
    (L : Locality) (hnd : (acc.1.map keyOf).Nodup)
    (hpre : ∃ t, acc.1.map keyOf = K0 ++ t) :
    ((updateStep acc L).1.map keyOf).Nodup ∧
    ∃ t, (updateStep acc L).1.map keyOf = K0 ++ t := by
  rcases hf : acc.1.find? (fun M => sameKey L M) with - | M
  · have hnone : ∀ M ∈ acc.1, ¬ sameKey L M = true := List.find?_eq_none.mp hf
    have hnotin : keyOf L ∉ acc.1.map keyOf := by
      intro hmem
      obtain ⟨M, hM, hk⟩ := List.mem_map.mp hmem
      exact hnone M hM ((sameKey_iff L M).mpr hk.symm)
    rw [updateStep_of_none acc L hf]
    constructor
    · simp only [List.map_append, List.map_cons, List.map_nil]
      rw [List.nodup_append]
      exact ⟨hnd, List.nodup_singleton _, by simpa using hnotin⟩
    · obtain ⟨t, ht⟩ := hpre
      exact ⟨t ++ [keyOf L], by rw [List.map_append, ht, List.append_assoc]; rfl⟩
  · by_cases hr : shouldReplace L M
    · rw [updateStep_of_replace acc L M hf hr]
      rw [show (replaceFirst (fun M2 => sameKey L M2) L acc.1, true).1 =
        replaceFirst (fun M2 => sameKey L M2) L acc.1 from rfl, replaceFirst_map_keyOf]
      exact ⟨hnd, hpre⟩
    · rw [updateStep_of_keep acc L M hf (by simpa using hr)]
      exact ⟨hnd, hpre⟩

/-- The outer fold of `_update` keeps the key list Nodup and only extends
it on the right. -/
theorem foldl_updateStep_keys (K0 : List (String × String)) (ls : List Locality) :
    ∀ (acc : List Locality × Bool), (acc.1.map keyOf).Nodup →
      (∃ t, acc.1.map keyOf = K0 ++ t) →
      ((ls.foldl updateStep acc).1.map keyOf).Nodup ∧
      ∃ t, (ls.foldl updateStep acc).1.map keyOf = K0 ++ t := by
  induction ls with
  | nil => exact fun acc h1 h2 => ⟨h1, h2⟩
  | cons L ls ih =>
    intro acc h1 h2
    have step := updateStep_keys K0 acc L h1 h2
    exact ih (updateStep acc L) step.1 step.2

/-- C2. For states with equal usernames whose current localities have
pairwise distinct (city, country) keys, `_update` never removes an
existing locality's key, never changes the key at any existing position
(the key list of the result extends the current key list on the right),
and the result's keys are again pairwise distinct. -/
theorem update_preserves_keys (current incoming : State)
    (h : current.username = incoming.username)
    (hnd : (current.localities.map keyOf).Nodup) :
    (∀ k ∈ current.localities.map keyOf,
      k ∈ (_update current incoming).state.localities.map keyOf) ∧
    (∃ t, (_update current incoming).state.localities.map keyOf =
      current.localities.map keyOf ++ t) ∧
    ((_update current incoming).state.localities.map keyOf).Nodup := by
  have heq : (_update current incoming).state.localities =
      (incoming.localities.foldl updateStep (current.localities, false)).1 := rfl
  have main := foldl_updateStep_keys (current.localities.map keyOf) incoming.localities
    (current.localities, false) hnd ⟨[], by simp⟩
  rw [heq]
  refine ⟨?_, main.2, main.1⟩
  obtain ⟨t, ht⟩ := main.2
  intro k hk
  rw [ht]
  exact List.mem_append_left t hk

/-- Witness for C2 at a concrete pair of states. -/
theorem update_preserves_keys_witness :
    (stateOf "alice" [locParis 10 "1.1.1.1", locRome 3 "2.2.2.2"]).username =
      (stateOf "alice" [locParis 12 "3.3.3.3"]).username ∧
    ((stateOf "alice" [locParis 10 "1.1.1.1", locRome 3 "2.2.2.2"]).localities.map
      keyOf).Nodup ∧
    ((_update (stateOf "alice" [locParis 10 "1.1.1.1", locRome 3 "2.2.2.2"])
        (stateOf "alice" [locParis 12 "3.3.3.3"])).state.localities.map keyOf).Nodup :=
  ⟨rfl, by decide,
    (update_preserves_keys (stateOf "alice" [locParis 10 "1.1.1.1", locRome 3 "2.2.2.2"])
      (stateOf "alice" [locParis 12 "3.3.3.3"]) rfl (by decide)).2.2⟩

/-- A key is absent exactly when lookup fails. -/
theorem dictGet_eq_none_iff (m : Mapped) (k : String) :
    dictGet m k = none ↔ k ∉ m.map Prod.fst := by
  induction m with
  | nil => simp [dictGet]
  | cons kv rest ih =>
    obtain ⟨a, b⟩ := kv
    by_cases h : a == k
    · simp [dictGet, h, eq_of_beq h]
    · have : ¬ a = k := by simpa using h
      simp [dictGet, h, ih, Ne.symm this]

/-- Setting an absent key appends the binding at the end. -/
theorem dictSet_of_none (m : Mapped) (k : String) (v : Update)
    (h : dictGet m k = none) : dictSet m k v = m ++ [(k, v)] := by
  induction m with
  | nil => rfl
  | cons kv rest ih =>
    obtain ⟨a, b⟩ := kv
    by_cases hk : a == k
    · simp [dictGet, hk] at h
    · simp only [dictGet, hk] at h
      simp only [dictSet, hk]
      rw [ih (by simpa using h)]
      simp

/-- Lookup after setting the same key. -/
theorem dictGet_set_self (m : Mapped) (k : String) (v : Update) :
    dictGet (dictSet m k v) k = some v := by
  induction m with
  | nil => simp [dictSet, dictGet]
  | cons kv rest ih =>
    obtain ⟨a, b⟩ := kv
    by_cases hk : a == k
    · simp [dictSet, dictGet, hk]
    · simp [dictSet, dictGet, hk, ih]

/-- Lookup after setting a different key. -/
theorem dictGet_set_ne (m : Mapped) (k' k : String) (v : Update) (h : k' ≠ k) :
    dictGet (dictSet m k' v) k = dictGet m k := by
  induction m with
  | nil => simp [dictSet, dictGet, h]
  | cons kv rest ih =>
    obtain ⟨a, b⟩ := kv
    by_cases hk : a == k'
    · have : ¬ a == k := by simp [eq_of_beq hk, h]
      simp [dictSet, dictGet, hk, this]
    · by_cases hk2 : a == k <;> simp [dictSet, dictGet, hk, hk2, ih]

/-- Setting a present key leaves the key list unchanged. -/
theorem dictSet_map_fst_of_some (m : Mapped) (k : String) (v w : Update)
    (h : dictGet m k = some w) :
    (dictSet m k v).map Prod.fst = m.map Prod.fst := by
  induction m with
  | nil => simp [dictGet] at h
  | cons kv rest ih =>
    obtain ⟨a, b⟩ := kv
    by_cases hk : a == k
    · simp [dictSet, hk]
    · simp only [dictGet, hk] at h
      simp only [dictSet, hk]
      simp only [Bool.false_eq_true, if_false, List.map_cons] at h ⊢
      rw [ih (by simpa using h)]

/-- Lookup over an append searches left first. -/
theorem dictGet_append (m1 m2 : Mapped) (k : String) :
    dictGet (m1 ++ m2) k = (dictGet m1 k).or (dictGet m2 k) := by
  induction m1 with
  | nil => simp [dictGet]
  | cons kv rest ih =>
    obtain ⟨a, b⟩ := kv
    by_cases h : a == k <;> simp [dictGet, h, ih]

/-- A successful lookup exhibits a member binding. -/
theorem dictGet_some_mem (m : Mapped) (k : String) (v : Update)
    (h : dictGet m k = some v) : (k, v) ∈ m := by
  induction m with
  | nil => simp [dictGet] at h
  | cons kv rest ih =>
    obtain ⟨a, b⟩ := kv
    by_cases hk : a == k
    · simp only [dictGet, hk, if_pos, Option.some_inj] at h
      exact List.mem_cons.mpr (Or.inl (by rw [← eq_of_beq hk, ← h]))
    · simp only [dictGet, hk] at h
      exact List.mem_cons_of_mem _ (ih (by simpa using h))

/-- Under Nodup keys, a member binding is found by lookup. -/
theorem dictGet_of_mem (m : Mapped) (k : String) (v : Update)
    (hmem : (k, v) ∈ m) (hnd : (m.map Prod.fst).Nodup) : dictGet m k = some v := by
  induction m with
  | nil => simp at hmem
  | cons kv rest ih =>
    obtain ⟨a, b⟩ := kv
    have hnd2 : a ∉ rest.map Prod.fst ∧ (rest.map Prod.fst).Nodup := by
      rw [List.map_cons] at hnd
      exact List.nodup_cons.mp hnd
    rcases List.mem_cons.mp hmem with heq | htail
    · rw [show ((a, b) : String × Update) = (k, v) from heq.symm]
      simp [dictGet]
    · have hk : a ≠ k := by
        intro hkk
        have hkm : k ∈ rest.map Prod.fst := List.mem_map.mpr ⟨(k, v), htail, rfl⟩
        rw [← hkk] at hkm
        exact hnd2.1 hkm
      have hk2 : ¬ a == k := by simpa using hk
      simp only [dictGet, hk2]
      simp only [Bool.false_eq_true, if_false]
      exact ih htail hnd2.2

/-- `dictSet` grows the dict by at most one binding. -/
theorem dictSet_length_le (m : Mapped) (k : String) (v : Update) :
    (dictSet m k v).length ≤ m.length + 1 := by
  induction m with
  | nil => simp [dictSet]
  | cons kv rest ih =>
    obtain ⟨a, b⟩ := kv
    by_cases hk : a == k
    · simp [dictSet, hk]
    · simp only [dictSet, hk, Bool.false_eq_true, if_false, List.length_cons]
      omega

/-- Setting a present key does not grow the dict. -/
theorem dictSet_length_of_some (m : Mapped) (k : String) (v w : Update)
    (h : dictGet m k = some w) : (dictSet m k v).length = m.length := by
  have := dictSet_map_fst_of_some m k v w h
  have h1 : ((dictSet m k v).map Prod.fst).length = (m.map Prod.fst).length := by rw [this]
  simpa using h1

/-- Seeding over usernames fresh for `m` appends the seeded bindings. -/
theorem foldl_seedStep_fresh (P : List State) :
    ∀ m : Mapped, (P.map State.username).Nodup →
      (∀ s ∈ P, dictGet m s.username = none) →
      P.foldl seedStep m = m ++ P.map (fun s => (s.username, ⟨s, false⟩)) := by
  induction P with
  | nil => simp
  | cons s P ih =>
    intro m hnd hfresh
    have h0 : dictGet m s.username = none := hfresh s (List.mem_cons_self s P)
    have hnd' : s.username ∉ P.map State.username ∧ (P.map State.username).Nodup := by
      rw [List.map_cons] at hnd
      exact List.nodup_cons.mp hnd
    have hfr : ∀ t ∈ P, dictGet (m ++ [(s.username, Update.mk s false)]) t.username = none := by
      intro t ht
      rw [dictGet_append, hfresh t (List.mem_cons_of_mem s ht)]
      have hne : t.username ≠ s.username := by
        intro h
        exact hnd'.1 (h ▸ List.mem_map.mpr ⟨t, ht, rfl⟩)
      simp [dictGet, Ne.symm hne]
    rw [List.foldl_cons]
    rw [show seedStep m s = dictSet m s.username ⟨s, false⟩ from rfl]
    rw [dictSet_of_none m _ _ h0]
    have hrec := ih (m ++ [(s.username, Update.mk s false)]) hnd'.2 hfr
    rw [hrec]
    simp

/-- Folding observed states whose usernames are fresh for `m` appends the
corresponding changed bindings. -/
theorem foldl_mergeStep_fresh (O : List State) :
    ∀ m : Mapped, (O.map State.username).Nodup →
      (∀ s ∈ O, dictGet m s.username = none) →
      O.foldl mergeStep m = m ++ O.map (fun s => (s.username, ⟨s, true⟩)) := by
  induction O with
  | nil => simp
  | cons s O ih =>
    intro m hnd hfresh
    have h0 : dictGet m s.username = none := hfresh s (List.mem_cons_self s O)
    have hnd' : s.username ∉ O.map State.username ∧ (O.map State.username).Nodup := by
      rw [List.map_cons] at hnd
      exact List.nodup_cons.mp hnd
    have hfr : ∀ t ∈ O, dictGet (m ++ [(s.username, Update.mk s true)]) t.username = none := by
      intro t ht
      rw [dictGet_append, hfresh t (List.mem_cons_of_mem s ht)]
      have hne : t.username ≠ s.username := by
        intro h
        exact hnd'.1 (h ▸ List.mem_map.mpr ⟨t, ht, rfl⟩)
      simp [dictGet, Ne.symm hne]
    rw [List.foldl_cons]
    rw [show mergeStep m s = dictSet m s.username ⟨s, true⟩ by rw [mergeStep, h0]]
    rw [dictSet_of_none m _ _ h0]
    have hrec := ih (m ++ [(s.username, Update.mk s true)]) hnd'.2 hfr
    rw [hrec]
    simp

/-- C3. Over disjoint username sets (with usernames unique within each
collection), `merge` returns the persisted states unchanged and marked
unchanged followed by the observed states marked changed: exactly
`|persisted| + |observed|` results, every username of either input
appearing exactly once. -/
theorem merge_disjoint (P O : List State)
    (hP : (P.map State.username).Nodup) (hO : (O.map State.username).Nodup)
    (hD : ∀ u, u ∈ P.map State.username → u ∉ O.map State.username) :
    merge P O = P.map (fun s => ⟨s, false⟩) ++ O.map (fun s => ⟨s, true⟩) ∧
    (merge P O).length = P.length + O.length ∧
    (merge P O).map (fun r => r.state.username) =
      P.map State.username ++ O.map State.username := by
  have hseed := foldl_seedStep_fresh P [] hP (fun s _ => rfl)
  simp only [List.nil_append] at hseed
  have hfresh2 : ∀ s ∈ O, dictGet (P.map (fun s => (s.username, ⟨s, false⟩))) s.username
      = none := by
    intro s hs
    rw [dictGet_eq_none_iff]
    intro hmem
    have : s.username ∈ P.map State.username := by
      obtain ⟨kv, hkv, hk⟩ := List.mem_map.mp hmem
      obtain ⟨t, ht, hkv2⟩ := List.mem_map.mp hkv
      rw [← hk, ← hkv2]
      exact List.mem_map.mpr ⟨t, ht, rfl⟩
    exact hD s.username this (List.mem_map.mpr ⟨s, hs, rfl⟩)
  have hmain : merge P O =
      P.map (fun s => ⟨s, false⟩) ++ O.map (fun s => ⟨s, true⟩) := by
    rw [merge, hseed, foldl_mergeStep_fresh O _ hO hfresh2]
    simp only [List.map_append, List.map_map]
    rfl
  refine ⟨hmain, ?_, ?_⟩
  · rw [hmain]
    simp
  · rw [hmain]
    simp only [List.map_append, List.map_map]
    rfl

/-- Witness for C3 at concrete disjoint collections. -/
theorem merge_disjoint_witness :
    ([stateOf "alice" [locParis 10 "1.1.1.1"]].map State.username).Nodup ∧
    ([stateOf "bob" [locRome 5 "2.2.2.2"]].map State.username).Nodup ∧
    merge [stateOf "alice" [locParis 10 "1.1.1.1"]] [stateOf "bob" [locRome 5 "2.2.2.2"]] =
      [⟨stateOf "alice" [locParis 10 "1.1.1.1"], false⟩,
        ⟨stateOf "bob" [locRome 5 "2.2.2.2"], true⟩] := by
  refine ⟨by decide, by decide, ?_⟩
  have h := merge_disjoint [stateOf "alice" [locParis 10 "1.1.1.1"]]
    [stateOf "bob" [locRome 5 "2.2.2.2"]] (by decide) (by decide) (by decide)
  rw [h.1]
  rfl

/-- Seeding adds at most one binding per persisted state. -/
theorem foldl_seed_length_le (P : List State) :
    ∀ m : Mapped, (P.foldl seedStep m).length ≤ m.length + P.length := by
  induction P with
  | nil => simp
  | cons s P ih =>
    intro m
    have h1 := ih (seedStep m s)
    have h2 : (seedStep m s).length ≤ m.length + 1 := dictSet_length_le m _ _
    simp only [List.foldl_cons, List.length_cons]
    omega

/-- With a repeated username among the seeds, at least one seed overwrites
an existing binding, so the dict stays strictly smaller. -/
theorem foldl_seed_length_lt (P : List State) :
    ∀ m : Mapped, (m.map Prod.fst).Nodup →
      ¬ (m.map Prod.fst ++ P.map State.username).Nodup →
      (P.foldl seedStep m).length < m.length + P.length := by
  induction P with
  | nil =>
    intro m hnd hcon
    exact absurd (by simpa using hnd) hcon
  | cons s P ih =>
    intro m hnd hcon
    rcases h0 : dictGet m s.username with - | w
    · have hfst : (dictSet m s.username ⟨s, false⟩).map Prod.fst
          = m.map Prod.fst ++ [s.username] := by
        rw [dictSet_of_none m _ _ h0]
        simp
      have hnd' : ((dictSet m s.username ⟨s, false⟩).map Prod.fst).Nodup := by
        rw [hfst, List.nodup_append]
        refine ⟨hnd, List.nodup_singleton _, ?_⟩
        simpa using (dictGet_eq_none_iff m s.username).mp h0
      have hcon' : ¬ (((dictSet m s.username ⟨s, false⟩).map Prod.fst)
          ++ P.map State.username).Nodup := by
        rw [hfst, List.append_assoc]
        simpa using hcon
      have hlen : (dictSet m s.username ⟨s, false⟩).length = m.length + 1 := by
        rw [dictSet_of_none m _ _ h0]
        simp
      have hih := ih (dictSet m s.username ⟨s, false⟩) hnd' hcon'
      simp only [List.foldl_cons, List.length_cons]
      rw [show P.foldl seedStep (seedStep m s) = P.foldl seedStep
        (dictSet m s.username ⟨s, false⟩) from rfl]
      omega
    · have hlen : (dictSet m s.username ⟨s, false⟩).length = m.length :=
        dictSet_length_of_some m _ _ w h0
      have hle := foldl_seed_length_le P (dictSet m s.username ⟨s, false⟩)
      simp only [List.foldl_cons, List.length_cons]
      rw [show P.foldl seedStep (seedStep m s) = P.foldl seedStep
        (dictSet m s.username ⟨s, false⟩) from rfl]
      omega

/-- The seeded binding for a username is the last persisted state carrying
it, flagged unchanged. -/
theorem foldl_seedStep_getLast (u : String) (P : List State) :
    ∀ m : Mapped,
      dictGet (P.foldl seedStep m) u =
        match (P.filter (fun t => t.username == u)).getLast? with
        | some s => some ⟨s, false⟩
        | none => dictGet m u := by
  induction P using List.reverseRecOn with
  | nil => intro m; rfl
  | append_singleton l a ih =>
    intro m
    rw [List.foldl_append, List.foldl_cons, List.foldl_nil, List.filter_append]
    by_cases h : a.username == u
    · rw [show List.filter (fun t => t.username == u) [a] = [a] by simp [h]]
      rw [List.getLast?_concat]
      rw [show seedStep (l.foldl seedStep m) a
        = dictSet (l.foldl seedStep m) a.username ⟨a, false⟩ from rfl]
      rw [eq_of_beq h]
      exact dictGet_set_self _ _ _
    · rw [show List.filter (fun t => t.username == u) [a] = [] by simp [h]]
      rw [List.append_nil]
      rw [show seedStep (l.foldl seedStep m) a
        = dictSet (l.foldl seedStep m) a.username ⟨a, false⟩ from rfl]
      rw [dictGet_set_ne _ _ _ _ (by simpa using h)]
      exact ih m

/-- C10. When the persisted collection repeats a username, `merge` raises
nothing: the output is strictly smaller than the persisted input, and for
each username the binding kept is the last persisted state with that
username, flagged unchanged. -/
theorem merge_duplicate_persisted (P : List State)
    (hdup : ¬ (P.map State.username).Nodup) :
    (merge P []).length < P.length ∧
    ∀ u s, (P.filter (fun t => t.username == u)).getLast? = some s →
      Update.mk s false ∈ merge P [] := by
  have hmerge : merge P [] = (P.foldl seedStep []).map Prod.snd := rfl
  constructor
  · rw [hmerge, List.length_map]
    have := foldl_seed_length_lt P [] (by simp) (by simpa using hdup)
    simpa using this
  · intro u s hs
    have hget : dictGet (P.foldl seedStep []) u = some ⟨s, false⟩ := by
      rw [foldl_seedStep_getLast u P [], hs]
    have hmem := dictGet_some_mem _ _ _ hget
    rw [hmerge]
    exact List.mem_map.mpr ⟨(u, ⟨s, false⟩), hmem, rfl⟩

/-- Witness for C10 at a concrete duplicated persisted collection. -/
theorem merge_duplicate_persisted_witness :
    ¬ (([stateOf "u" [locParis 1 "1.1.1.1"], stateOf "u" [locRome 2 "2.2.2.2"]].map
      State.username).Nodup) ∧
    (merge [stateOf "u" [locParis 1 "1.1.1.1"], stateOf "u" [locRome 2 "2.2.2.2"]] []).length
      < 2 ∧
    Update.mk (stateOf "u" [locRome 2 "2.2.2.2"]) false ∈
      merge [stateOf "u" [locParis 1 "1.1.1.1"], stateOf "u" [locRome 2 "2.2.2.2"]] [] := by
  have h := merge_duplicate_persisted
    [stateOf "u" [locParis 1 "1.1.1.1"], stateOf "u" [locRome 2 "2.2.2.2"]] (by decide)
  exact ⟨by decide, h.1, h.2 "u" (stateOf "u" [locRome 2 "2.2.2.2"]) (by decide)⟩

/-- If the outer fold of `_update` reports no update, the locality list is
exactly the one it started from (and it started unchanged). -/
theorem foldl_updateStep_of_false (ls : List Locality) :
    ∀ (locs : List Locality) (b : Bool),
      (ls.foldl updateStep (locs, b)).2 = false →
      b = false ∧ (ls.foldl updateStep (locs, b)).1 = locs := by
  induction ls with
  | nil => exact fun locs b h => ⟨h, rfl⟩
  | cons L ls ih =>
    intro locs b h
    rw [List.foldl_cons] at h ⊢
    rcases hf : locs.find? (fun M => sameKey L M) with - | M
    · rw [updateStep_of_none (locs, b) L hf] at h ⊢
      exact absurd ((ih _ _ h).1) (by simp)
    · by_cases hr : shouldReplace L M
      · rw [updateStep_of_replace (locs, b) L M hf hr] at h ⊢
        exact absurd ((ih _ _ h).1) (by simp)
      · rw [updateStep_of_keep (locs, b) L M hf (by simpa using hr)] at h ⊢
        exact ih _ _ h

/-- A merge that reports `did_update = false` returns the current state
unchanged. -/
theorem update_unchanged_of_flag_false (s s' : State)
    (h : (_update s s').did_update = false) : (_update s s').state = s := by
  have h2 : (s'.localities.foldl updateStep (s.localities, false)).2 = false := h
  have hres := foldl_updateStep_of_false s'.localities s.localities false h2
  show ({ s with localities := (s'.localities.foldl updateStep (s.localities, false)).1 }
    : State) = s
  rw [hres.2]

/-- Folding observed states that never mention username `u` leaves the
binding at `u` alone. -/
theorem foldl_mergeStep_skip (u : String) (O : List State) :
    ∀ m : Mapped, (∀ o ∈ O, o.username ≠ u) →
      dictGet (O.foldl mergeStep m) u = dictGet m u := by
  induction O with
  | nil => exact fun m _ => rfl
  | cons o O ih =>
    intro m h
    rw [List.foldl_cons]
    rw [ih _ (fun t ht => h t (List.mem_cons_of_mem o ht))]
    have hne : o.username ≠ u := h o (List.mem_cons_self o O)
    rw [mergeStep]
    cases hd : dictGet m o.username
    · exact dictGet_set_ne m o.username u _ hne
    · exact dictGet_set_ne m o.username u _ hne

/-- If the observed collection mentions `p.username` at most once and the
dict maps that username to `p` unchanged, then any binding at that
username still flagged unchanged after the fold holds exactly `p`. -/
theorem foldl_mergeStep_get_unique (p : State) (O : List State) :
    ∀ m : Mapped,
      (O.filter (fun o => o.username == p.username)).length ≤ 1 →
      dictGet m p.username = some ⟨p, false⟩ →
      ∀ r, dictGet (O.foldl mergeStep m) p.username = some r →
        r.did_update = false → r.state = p := by
  induction O with
  | nil =>
    intro m _ hget r hr hflag
    rw [List.foldl_nil, hget] at hr
    rw [← Option.some_inj.mp hr]
  | cons o O ih =>
    intro m hlen hget r hr hflag
    by_cases ho : o.username = p.username
    · have hcons : List.filter (fun o => o.username == p.username) (o :: O)
          = o :: O.filter (fun o => o.username == p.username) :=
        List.filter_cons_of_pos (by simpa using ho)
      have hzero : (O.filter (fun o => o.username == p.username)).length = 0 := by
        rw [hcons] at hlen
        simp only [List.length_cons] at hlen
        omega
      have hOskip : ∀ t ∈ O, t.username ≠ p.username := by
        intro t ht hc
        have hmem : t ∈ O.filter (fun o => o.username == p.username) :=
          List.mem_filter.mpr ⟨ht, by simpa using hc⟩
        rw [List.length_eq_zero.mp hzero] at hmem
        simp at hmem
      rw [List.foldl_cons] at hr
      rw [foldl_mergeStep_skip p.username O _ hOskip] at hr
      have hm : dictGet m o.username = some ⟨p, false⟩ := by rw [ho]; exact hget
      rw [mergeStep, hm] at hr
      have hr2 : dictGet (dictSet m o.username (_update p o)) p.username = some r := hr
      rw [ho] at hr2
      rw [dictGet_set_self] at hr2
      have hrval : r = _update p o := (Option.some_inj.mp hr2).symm
      rw [hrval]
      exact update_unchanged_of_flag_false p o (by rw [← hrval]; exact hflag)
    · have hcons : List.filter (fun o => o.username == p.username) (o :: O)
          = O.filter (fun o => o.username == p.username) :=
        List.filter_cons_of_neg (by simpa using ho)
      rw [List.foldl_cons] at hr
      have hd : dictGet (mergeStep m o) p.username = dictGet m p.username := by
        rw [mergeStep]
        cases hdd : dictGet m o.username
        · exact dictGet_set_ne m o.username p.username _ ho
        · exact dictGet_set_ne m o.username p.username _ ho
      refine ih (mergeStep m o) ?_ ?_ r hr hflag
      · rw [hcons] at hlen
        exact hlen
      · rw [hd]
        exact hget

/-- `dictSet` preserves the key–value username invariant. -/
theorem goodKV_dictSet (m : Mapped) (k : String) (v : Update)
    (h : goodKV m) (hv : v.state.username = k) : goodKV (dictSet m k v) := by
  induction m with
  | nil =>
    intro kv hkv
    simp only [dictSet, List.mem_singleton] at hkv
    rw [hkv]
    exact hv
  | cons ab rest ih =>
    obtain ⟨a, b⟩ := ab
    by_cases hk : a == k
    · intro kv hkv
      simp only [dictSet, hk, if_pos] at hkv
      rcases List.mem_cons.mp hkv with heq | htail
      · rw [heq]
        show v.state.username = a
        rw [eq_of_beq hk]
        exact hv
      · exact h kv (List.mem_cons_of_mem _ htail)
    · intro kv hkv
      simp only [dictSet, hk, Bool.false_eq_true, if_false] at hkv
      rcases List.mem_cons.mp hkv with heq | htail
      · rw [heq]
        exact h (a, b) (List.mem_cons_self _ _)
      · exact ih (fun t ht => h t (List.mem_cons_of_mem _ ht)) kv htail

/-- Seeding preserves the key–value username invariant. -/
theorem goodKV_seed (P : List State) :
    ∀ m : Mapped, goodKV m → goodKV (P.foldl seedStep m) := by
  induction P with
  | nil => exact fun m h => h
  | cons s P ih =>
    intro m h
    rw [List.foldl_cons]
    exact ih _ (goodKV_dictSet m s.username ⟨s, false⟩ h rfl)

/-- Folding observed states preserves the key–value username invariant. -/
theorem goodKV_mergeFold (O : List State) :
    ∀ m : Mapped, goodKV m → goodKV (O.foldl mergeStep m) := by
  induction O with
  | nil => exact fun m h => h
  | cons s O ih =>
    intro m h
    rw [List.foldl_cons]
    refine ih _ ?_
    rw [mergeStep]
    cases hd : dictGet m s.username with
    | none => exact goodKV_dictSet m s.username ⟨s, true⟩ h rfl
    | some w =>
      refine goodKV_dictSet m s.username (_update w.state s) h ?_
      have hw : w.state.username = s.username := h _ (dictGet_some_mem m s.username w hd)
      exact hw

/-- `dictSet` preserves Nodup keys. -/
theorem dictSet_keys_nodup (m : Mapped) (k : String) (v : Update)
    (h : (m.map Prod.fst).Nodup) : ((dictSet m k v).map Prod.fst).Nodup := by
  rcases hg : dictGet m k with - | w
  · rw [dictSet_of_none m k v hg]
    rw [List.map_append, List.nodup_append]
    refine ⟨h, by simp, ?_⟩
    simpa using (dictGet_eq_none_iff m k).mp hg
  · rw [dictSet_map_fst_of_some m k v w hg]
    exact h

/-- Seeding preserves Nodup keys. -/
theorem foldl_seed_keys_nodup (P : List State) :
    ∀ m : Mapped, (m.map Prod.fst).Nodup →
      ((P.foldl seedStep m).map Prod.fst).Nodup := by
  induction P with
  | nil => exact fun m h => h
  | cons s P ih =>
    intro m h
    rw [List.foldl_cons]
    exact ih _ (dictSet_keys_nodup m s.username _ h)

/-- Folding observed states preserves Nodup keys. -/
theorem foldl_merge_keys_nodup (O : List State) :
    ∀ m : Mapped, (m.map Prod.fst).Nodup →
      ((O.foldl mergeStep m).map Prod.fst).Nodup := by
  induction O with
  | nil => exact fun m h => h
  | cons s O ih =>
    intro m h
    rw [List.foldl_cons]
    refine ih _ ?_
    rw [mergeStep]
    cases hd : dictGet m s.username
    · exact dictSet_keys_nodup m s.username _ h
    · exact dictSet_keys_nodup m s.username _ h

/-- Under Nodup usernames, the persisted states with a member's username
filter down to exactly that member. -/
theorem filter_username_eq_singleton (P : List State) (p : State)
    (hP : (P.map State.username).Nodup) (hp : p ∈ P) :
    P.filter (fun t => t.username == p.username) = [p] := by
  induction P with
  | nil => simp at hp
  | cons q P ih =>
    have hnd : q.username ∉ P.map State.username ∧ (P.map State.username).Nodup := by
      rw [List.map_cons] at hP
      exact List.nodup_cons.mp hP
    rcases List.mem_cons.mp hp with heq | htail
    · subst heq
      rw [List.filter_cons_of_pos (by simp)]
      have hnil : P.filter (fun t => t.username == p.username) = [] := by
        rw [List.filter_eq_nil_iff]
        intro t ht hc
        exact hnd.1 (List.mem_map.mpr ⟨t, ht, eq_of_beq hc⟩)
      rw [hnil]
    · have hqp : q.username ≠ p.username := by
        intro hc
        exact hnd.1 (hc ▸ List.mem_map.mpr ⟨p, htail, rfl⟩)
      rw [List.filter_cons_of_neg (by simpa using hqp)]
      exact ih hnd.2 htail

/-- C6 counterexample.  With the same username observed twice, the final
result keeps `changed = false` from the last merge step even though the
state was changed by the first one: the `changed` flag is not sound for
skipping writes. -/
theorem merge_changed_flag_unsound_on_duplicates :
    merge [stateOf "u" [locParis 10 "1.1.1.1"]]
        [stateOf "u" [locRome 5 "2.2.2.2"], stateOf "u" []] =
      [Update.mk (stateOf "u" [locParis 10 "1.1.1.1", locRome 5 "2.2.2.2"]) false] ∧
    stateOf "u" [locParis 10 "1.1.1.1", locRome 5 "2.2.2.2"] ≠
      stateOf "u" [locParis 10 "1.1.1.1"] := by
  exact ⟨by decide, by decide⟩

/-- C6 amended.  For a persisted state `p` (usernames unique among the
persisted collection), provided the observed collection carries at most
one state with `p`'s username, any result for that username flagged
`changed = false` holds exactly the persisted input state, so skipping the
write is sound.  (With duplicated observed usernames the flag can be reset
and the guarantee fails.) -/
theorem merge_changed_flag_sound (P O : List State) (p : State)
    (hP : (P.map State.username).Nodup) (hp : p ∈ P)
    (hone : (O.filter (fun o => o.username == p.username)).length ≤ 1) :
    ∀ r ∈ merge P O, r.state.username = p.username → r.did_update = false →
      r.state = p := by
  intro r hr hu hflag
  have hrmem : r ∈ (O.foldl mergeStep (P.foldl seedStep [])).map Prod.snd := hr
  obtain ⟨kv, hkv, hsnd⟩ := List.mem_map.mp hrmem
  obtain ⟨k, v⟩ := kv
  have hveq : v = r := hsnd
  have hgood : goodKV (O.foldl mergeStep (P.foldl seedStep [])) :=
    goodKV_mergeFold O _ (goodKV_seed P [] (by intro kv h; simp at h))
  have hkeq : k = p.username := by
    have hgk : v.state.username = k := hgood (k, v) hkv
    rw [hveq] at hgk
    rw [← hgk]
    exact hu
  have hndk : (((O.foldl mergeStep (P.foldl seedStep []))).map Prod.fst).Nodup :=
    foldl_merge_keys_nodup O _ (foldl_seed_keys_nodup P [] (by simp))
  have hget : dictGet (O.foldl mergeStep (P.foldl seedStep [])) p.username = some r := by
    rw [← hkeq]
    exact dictGet_of_mem _ k r (by rw [← hveq]; exact hkv) hndk
  have hseedget : dictGet (P.foldl seedStep []) p.username = some ⟨p, false⟩ := by
    rw [foldl_seedStep_getLast p.username P []]
    rw [filter_username_eq_singleton P p hP hp]
    rfl
  exact foldl_mergeStep_get_unique p O (P.foldl seedStep []) hone hseedget r hget hflag

/-- Witness for C6 at a concrete run with a single observed occurrence. -/
theorem merge_changed_flag_sound_witness :
    (([stateOf "w" [locParis 1 "1.1.1.1"]].map State.username).Nodup) ∧
    (([stateOf "w" [locParis 1 "1.1.1.1"]].filter
      (fun o => o.username == "w")).length ≤ 1) ∧
    (Update.mk (stateOf "w" [locParis 1 "1.1.1.1"]) false).state =
      stateOf "w" [locParis 1 "1.1.1.1"] :=
  ⟨by decide, by decide,
    merge_changed_flag_sound [stateOf "w" [locParis 1 "1.1.1.1"]]
      [stateOf "w" [locParis 1 "1.1.1.1"]] (stateOf "w" [locParis 1 "1.1.1.1"])
      (by decide) (by decide) (by decide)
      (Update.mk (stateOf "w" [locParis 1 "1.1.1.1"]) false) (by decide) rfl rfl⟩

/-- C9 amended theorem: a record that fails `to_state` (for example one
with a missing required field) is skipped at the read boundary, and the
surrounding reconciliation read still produces entries for every other
record — a malformed record is never fatal to the run. -/
theorem find_all_skips_malformed (pre post : List (String × List (String × Val)))
    (bad : String × List (String × Val)) (h : to_state bad.2 = none) :
    find_all (pre ++ bad :: post) = find_all (pre ++ post) := by
  simp [find_all, List.filterMap_append, List.filterMap_cons, h]

/-- Witness for C9 at a concrete batch with one malformed record. -/
theorem find_all_skips_malformed_witness :
    to_state missingFieldRec = none ∧
    find_all [("id1", wellFormedRec "alice"), ("id2", missingFieldRec),
        ("id3", wellFormedRec "bob")] =
      find_all [("id1", wellFormedRec "alice"), ("id3", wellFormedRec "bob")] :=
  ⟨rfl, find_all_skips_malformed [("id1", wellFormedRec "alice")]
    [("id3", wellFormedRec "bob")] ("id2", missingFieldRec) rfl⟩

/-- C9 counterexample.  A record with an extra field at both levels and
mistyped values (`username` an integer, `lastaction` a string) is accepted
by `to_state` rather than failing: constructing from an untyped record does
not fail on extra or mistyped fields, only on missing keys or the wrong
container shape. -/
theorem to_state_accepts_extra_and_mistyped :
    objGet sloppyRec "extra" = some (Val.vint 0) ∧
    to_state sloppyRec = some ⟨Val.vstr "locality", Val.vint 7,
      [⟨Val.vstr "1.1.1.1", Val.vstr "Paris", Val.vstr "FR", Val.vstr "yesterday",
        Val.vint 1, Val.vint 2, Val.vint 3⟩]⟩ :=
  ⟨rfl, rfl⟩

/-- `find?` only depends on the pointwise behaviour of its predicate. -/
theorem find?_congr_pred (p q : Locality → Bool) (h : ∀ x, p x = q x) :
    ∀ l : List Locality, l.find? p = l.find? q := by
  intro l
  induction l with
  | nil => rfl
  | cons x xs ih =>
    rw [List.find?_cons, List.find?_cons, h x]
    cases hq : q x
    · exact ih
    · rfl

/-- When `L` carries the key (c, co), matching `L`'s key is the same test
as matching (c, co). -/
theorem sameKey_eq_keyPred (L : Locality) (c co : String) (hc : L.city = c)
    (hco : L.country = co) (M : Locality) :
    sameKey L M = (M.city == c && M.country == co) := by
  subst hc
  subst hco
  rw [Bool.eq_iff_iff]
  simp only [sameKey, Bool.and_eq_true, beq_iff_eq]
  constructor
  · rintro ⟨h1, h2⟩
    exact ⟨h1.symm, h2.symm⟩
  · rintro ⟨h1, h2⟩
    exact ⟨h1.symm, h2.symm⟩

/-- Replacing at `L`'s key does not disturb the search for a different
key. -/
theorem replaceFirst_find?_other (L : Locality) (c co : String)
    (hL : (L.city == c && L.country == co) = false) (locs : List Locality) :
    (replaceFirst (fun M2 => sameKey L M2) L locs).find?
        (fun M => M.city == c && M.country == co) =
      locs.find? (fun M => M.city == c && M.country == co) := by
  induction locs with
  | nil => rfl
  | cons x xs ih =>
    by_cases hx : sameKey L x
    · have hk := (sameKey_iff L x).mp hx
      have hxc : L.city = x.city := congrArg Prod.fst hk
      have hxco : L.country = x.country := congrArg Prod.snd hk
      have hpx : (x.city == c && x.country == co) = false := by
        rw [← hxc, ← hxco]
        exact hL
      rw [show replaceFirst (fun M2 => sameKey L M2) L (x :: xs) = L :: xs by
        simp [replaceFirst, hx]]
      rw [List.find?_cons, List.find?_cons, hpx, hL]
    · rw [show replaceFirst (fun M2 => sameKey L M2) L (x :: xs)
        = x :: replaceFirst (fun M2 => sameKey L M2) L xs by simp [replaceFirst, hx]]
      rw [List.find?_cons, List.find?_cons]
      cases hq : (x.city == c && x.country == co)
      · exact ih
      · rfl

/-- If some locality with key (c, co) is present, replacing the first
locality with `L`'s key (equal to (c, co)) makes `L` the one found. -/
theorem replaceFirst_find?_same (L : Locality) (c co : String)
    (hc : L.city = c) (hco : L.country = co) (locs : List Locality) (M : Locality)
    (h : locs.find? (fun M => M.city == c && M.country == co) = some M) :
    (replaceFirst (fun M2 => sameKey L M2) L locs).find?
        (fun M => M.city == c && M.country == co) = some L := by
  induction locs with
  | nil => simp [List.find?] at h
  | cons x xs ih =>
    by_cases hx : sameKey L x
    · have hpL : (L.city == c && L.country == co) = true := by simp [hc, hco]
      rw [show replaceFirst (fun M2 => sameKey L M2) L (x :: xs) = L :: xs by
        simp [replaceFirst, hx]]
      rw [List.find?_cons, hpL]
    · have hpx : (x.city == c && x.country == co) = false := by
        cases hpx : (x.city == c && x.country == co)
        · rfl
        · exfalso
          apply hx
          rw [sameKey_eq_keyPred L c co hc hco x]
          exact hpx
      rw [List.find?_cons, hpx] at h
      rw [show replaceFirst (fun M2 => sameKey L M2) L (x :: xs)
        = x :: replaceFirst (fun M2 => sameKey L M2) L xs by simp [replaceFirst, hx]]
      rw [List.find?_cons, hpx]
      exact ih h

/-- An incoming locality with a different key never changes what is found
under (c, co). -/
theorem updateStep_findKey_other (c co : String) (acc : List Locality × Bool)
    (L : Locality) (hL : (L.city == c && L.country == co) = false) :
    findKey c co (updateStep acc L).1 = findKey c co acc.1 := by
  rcases hf : acc.1.find? (fun M => sameKey L M) with - | M
  · rw [updateStep_of_none acc L hf]
    rw [findKey, findKey, List.find?_append]
    rw [show List.find? (fun M => M.city == c && M.country == co) [L] = none by
      simp only [List.find?_cons, hL]; rfl]
    exact Option.or_none
  · by_cases hr : shouldReplace L M
    · rw [updateStep_of_replace acc L M hf hr]
      exact replaceFirst_find?_other L c co hL acc.1
    · rw [updateStep_of_keep acc L M hf (by simpa using hr)]

/-- Key-predicate filter over a cons whose head carries the key. -/
theorem filter_keyPred_cons_pos (c co : String) (L : Locality) (ls : List Locality)
    (h : (L.city == c && L.country == co) = true) :
    List.filter (fun M => M.city == c && M.country == co) (L :: ls)
      = L :: List.filter (fun M => M.city == c && M.country == co) ls := by
  simp [List.filter_cons, h]

/-- Key-predicate filter over a cons whose head carries another key. -/
theorem filter_keyPred_cons_neg (c co : String) (L : Locality) (ls : List Locality)
    (h : (L.city == c && L.country == co) = false) :
    List.filter (fun M => M.city == c && M.country == co) (L :: ls)
      = List.filter (fun M => M.city == c && M.country == co) ls := by
  simp [List.filter_cons, h]

/-- The locality found under a key after the outer fold of `_update` is
the left fold of the update rule over the incoming entries with that key,
started from the stored entry (or from the first such incoming entry when
the key was absent). -/
theorem foldl_updateStep_findKey (c co : String) (ls : List Locality) :
    ∀ acc : List Locality × Bool,
      findKey c co (ls.foldl updateStep acc).1 =
        match findKey c co acc.1,
          ls.filter (fun L => L.city == c && L.country == co) with
        | some M, ds => some (ds.foldl keepNewer M)
        | none, [] => none
        | none, d :: ds => some (ds.foldl keepNewer d) := by
  induction ls with
  | nil =>
    intro acc
    rcases h : findKey c co acc.1 with - | M
    · simp only [List.foldl_nil, List.filter_nil, h]
    · simp only [List.foldl_nil, List.filter_nil, h, List.foldl_nil]
  | cons L ls ih =>
    intro acc
    rw [List.foldl_cons]
    by_cases hL : (L.city == c && L.country == co) = true
    · have hparts : L.city = c ∧ L.country = co := by simpa using hL
      rcases hacc : findKey c co acc.1 with - | M
      · have hsk : acc.1.find? (fun M2 => sameKey L M2) = none := by
          rw [find?_congr_pred _ _
            (fun M2 => sameKey_eq_keyPred L c co hparts.1 hparts.2 M2) acc.1]
          exact hacc
        rw [updateStep_of_none acc L hsk]
        rw [ih (acc.1 ++ [L], true)]
        have hfk : findKey c co ((acc.1 ++ [L], true) : List Locality × Bool).1
            = some L := by
          show findKey c co (acc.1 ++ [L]) = some L
          rw [findKey, List.find?_append]
          rw [show acc.1.find? (fun M => M.city == c && M.country == co) = none
            from hacc]
          rw [show List.find? (fun M => M.city == c && M.country == co) [L] = some L by
            simp only [List.find?_cons, hL]]
          rfl
        rw [hfk, filter_keyPred_cons_pos c co L ls hL]
      · have hsk : acc.1.find? (fun M2 => sameKey L M2) = some M := by
          rw [find?_congr_pred _ _
            (fun M2 => sameKey_eq_keyPred L c co hparts.1 hparts.2 M2) acc.1]
          exact hacc
        by_cases hr : shouldReplace L M
        · rw [updateStep_of_replace acc L M hsk hr]
          rw [ih (replaceFirst (fun M2 => sameKey L M2) L acc.1, true)]
          have hfk : findKey c co
              ((replaceFirst (fun M2 => sameKey L M2) L acc.1, true)
                : List Locality × Bool).1 = some L :=
            replaceFirst_find?_same L c co hparts.1 hparts.2 acc.1 M hacc
          rw [hfk, filter_keyPred_cons_pos c co L ls hL]
          have hkn : keepNewer M L = L := by rw [keepNewer, if_pos hr]
          simp only [List.foldl_cons, hkn]
        · rw [updateStep_of_keep acc L M hsk (by simpa using hr)]
          rw [ih acc]
          rw [filter_keyPred_cons_pos c co L ls hL]
          have hkn : keepNewer M L = M := by
            rw [keepNewer, if_neg (by simpa using hr)]
          simp only [List.foldl_cons, hkn]
          rw [hacc]
    · have hLf : (L.city == c && L.country == co) = false := by simpa using hL
      rw [ih (updateStep acc L)]
      rw [updateStep_findKey_other c co acc L hLf]
      rw [filter_keyPred_cons_neg c co L ls hLf]

/-- C8 counterexample.  With two incoming localities sharing a key where
the later one is older and from the same address, the merge stores the
first, not the last: the last duplicate-keyed incoming entry does not
unconditionally win. -/
theorem update_last_duplicate_does_not_always_win :
    (_update (stateOf "u" [])
        (stateOf "u" [locParis 5 "1.1.1.1", locParis 3 "1.1.1.1"])).state.localities
      = [locParis 5 "1.1.1.1"] ∧
    (stateOf "u" [locParis 5 "1.1.1.1", locParis 3 "1.1.1.1"]).localities.getLast?
      = some (locParis 3 "1.1.1.1") ∧
    locParis 5 "1.1.1.1" ≠ locParis 3 "1.1.1.1" :=
  ⟨by decide, by decide, by decide⟩

/-- C8 amended.  Duplicate-keyed incoming entries are each matched in
order against the accumulating state under the same update rule, so the
locality stored under a key after the merge is the left fold of "replace
only if strictly newer or from a different address" over the incoming
entries with that key — a later duplicate wins only when that rule fires,
not unconditionally. -/
theorem update_duplicate_keys_last_write (current incoming : State) (c co : String) :
    findKey c co (_update current incoming).state.localities =
      match findKey c co current.localities,
        incoming.localities.filter (fun L => L.city == c && L.country == co) with
      | some M, ds => some (ds.foldl keepNewer M)
      | none, [] => none
      | none, d :: ds => some (ds.foldl keepNewer d) :=
  foldl_updateStep_findKey c co incoming.localities (current.localities, false)

end GeoModel
